import Mathlib

/-!
Shallow embedding of the Wordle solver (src/wordleGames.py, src/entropyGame.py).

Words are lists of characters; Python `Counter` objects are embedded as
count functions `Char → Nat` (a missing key reads as 0, matching
`Counter.__getitem__` / `dict.get(c, 0)`); Python sets of letters are
embedded as lists with membership up to duplicates; the per-session
tracking state (`guessed_letters`, `wrong_placed_letters`, `bad_letters`)
is threaded explicitly since the Python code mutates it in place.
-/

/-- Enums for the different colors which appear after a wordle guess
(`LetterResultOptions`: Grey = 0, Yellow = 1, Green = 2). -/
inductive Color where
  | Grey : Color
  | Yellow : Color
  | Green : Color
deriving DecidableEq, Repr

/-- An object to represent a possible guess/solution to a wordle puzzle
(`WordleOption`).  The Python class stores `word` and `letters = Counter(word)`;
the counter is always derived from the word, so only the word is a field here
and `letters` is the derived count function. -/
structure WordleOption where
  word : List Char
deriving DecidableEq, Repr

/-- Frequencies of letters in `word` (`self.letters = Counter(word)`),
read with Counter semantics: a missing key is 0. -/
def WordleOption.letters (o : WordleOption) (c : Char) : Nat :=
  o.word.count c

/-- Result of a guess during a wordle game (`GuessResult`). -/
structure GuessResult where
  guess : WordleOption
  result : List Color
deriving DecidableEq, Repr

/-- Decrement of a letter-frequency table entry (`sol_letters[c] -= 1`).
Counts are embedded as `Char → Int` so the embedding does not silently
saturate at zero the way `Nat` subtraction would. -/
def decr (cnt : Char → Int) (c : Char) : Char → Int :=
  fun x => if x = c then cnt x - 1 else cnt x

/-- Pass 1 of `WordleUtils.validateGuess`: for each position, if the guess
letter equals the solution letter, mark Green and decrement the working
copy of the solution letter-frequency table; otherwise leave the initial
Grey.  Returns the pass-1 result array and the decremented table. -/
def pass1 : List Char → List Char → (Char → Int) → List Color × (Char → Int)
  | g :: gs, s :: ss, cnt =>
    if g = s then
      let r := pass1 gs ss (decr cnt g)
      (Color.Green :: r.1, r.2)
    else
      let r := pass1 gs ss cnt
      (Color.Grey :: r.1, r.2)
  | _, _, cnt => ([], cnt)

/-- Pass 2 of `WordleUtils.validateGuess`: skip Greens; otherwise, if the
guess letter still has remaining count `> 0` in the decremented table
(`guess.word[i] in sol_letters and sol_letters[guess.word[i]] > 0`),
mark Yellow and decrement, else leave Grey. -/
def pass2 : List Char → List Color → (Char → Int) → List Color
  | g :: gs, c :: cs, cnt =>
    if c = Color.Green then Color.Green :: pass2 gs cs cnt
    else if cnt g > 0 then Color.Yellow :: pass2 gs cs (decr cnt g)
    else Color.Grey :: pass2 gs cs cnt
  | _, _, _ => []

/-- Takes a wordle option as a guess and a wordle option as a solution and
returns a result array (`WordleUtils.validateGuess`, on the underlying
words): pass 1 for the Greens over `sol_letters = solution.letters.copy()`,
then pass 2 for the Yellows. -/
def validateGuess (g s : List Char) : List Color :=
  let p := pass1 g s (fun c => (s.count c : Int))
  pass2 g p.1 p.2

example : validateGuess "speed".toList "erase".toList =
    [Color.Yellow, Color.Grey, Color.Yellow, Color.Yellow, Color.Grey] := by decide

example : validateGuess "crane".toList "crane".toList =
    [Color.Green, Color.Green, Color.Green, Color.Green, Color.Green] := by decide

example : validateGuess "abbey".toList "level".toList =
    [Color.Grey, Color.Grey, Color.Grey, Color.Green, Color.Grey] := by decide

/-- Per-session tracking state of `WordleGame`: `guessed_letters` (correct
letters per position or None), `wrong_placed_letters` (per-position sets of
letters that are in the word but not at that place), `bad_letters` (letters
not in the solution at all).  Python sets of letters are embedded as lists
(membership is all that is ever read). -/
structure Trackers where
  guessed_letters : List (Option Char)
  wrong_placed_letters : List (List Char)
  bad_letters : List Char
deriving DecidableEq, Repr

/-- Fresh per-session state built by `WordleGame.__init__`:
five None slots, five empty sets, an empty bad-letter set. -/
def freshTrackers : Trackers :=
  { guessed_letters := List.replicate 5 none
    wrong_placed_letters := List.replicate 5 []
    bad_letters := [] }

/-- Bump of a result-count table entry
(`result_counts[char] = result_counts.get(char, 0) + 1`). -/
def bump (rc : Char → Nat) (c : Char) : Char → Nat :=
  fun x => if x = c then rc x + 1 else rc x

/-- Insertion into the letter set at index `i` of a per-position list of sets
(`wrong_placed_letters[i].add(char)`). -/
def addAt (wp : List (List Char)) (i : Nat) (c : Char) : List (List Char) :=
  wp.set i (c :: wp.getD i [])

/-- First loop of `WordleUtils.updateCountsHelper`, over
`enumerate(zip(word, result))` with the running index made explicit:
Green records the letter in `guessed_letters[i]` and bumps its result
count, Yellow adds the letter to `wrong_placed_letters[i]` and bumps its
result count, Grey only materialises the zero entry (a no-op on the count
function). -/
def updateLoop1 : Nat → List (Char × Color) → (Char → Nat) → Trackers →
    (Char → Nat) × Trackers
  | _, [], rc, t => (rc, t)
  | i, (c, col) :: rest, rc, t =>
    if col = Color.Green then
      updateLoop1 (i + 1) rest (bump rc c)
        { t with guessed_letters := t.guessed_letters.set i (some c) }
    else if col = Color.Yellow then
      updateLoop1 (i + 1) rest (bump rc c)
        { t with wrong_placed_letters := addAt t.wrong_placed_letters i c }
    else
      updateLoop1 (i + 1) rest rc t

/-- Second loop of `WordleUtils.updateCountsHelper`
(`for char, count in result_counts.items(): if count == 0: bad_letters.add(char)`).
The keys of the `result_counts` dict are exactly the letters that the first
loop visited, so the iteration is over that key list. -/
def updateLoop2 (keys : List Char) (rc : Char → Nat) (bad : List Char) : List Char :=
  keys.foldl (fun b c => if rc c = 0 then c :: b else b) bad

/-- Third loop of `WordleUtils.updateCountsHelper`: a Grey letter whose
result count is positive (a duplicate occurrence elsewhere was colored)
is added to `wrong_placed_letters[i]`. -/
def updateLoop3 : Nat → List (Char × Color) → (Char → Nat) → List (List Char) →
    List (List Char)
  | _, [], _, wp => wp
  | i, (c, col) :: rest, rc, wp =>
    if col = Color.Grey ∧ rc c > 0 then updateLoop3 (i + 1) rest rc (addAt wp i c)
    else updateLoop3 (i + 1) rest rc wp

/-- Returns the result-count dictionary of a given guess and updates the
trackers (`WordleUtils.updateCountsHelper`).  The dict is embedded as the
count function together with its key list `(word.zip result).map Prod.fst`. -/
def updateCountsHelper (word : List Char) (result : List Color) (t : Trackers) :
    (Char → Nat) × Trackers :=
  let zl := word.zip result
  let p := updateLoop1 0 zl (fun _ => 0) t
  let bad := updateLoop2 (zl.map Prod.fst) p.1 t.bad_letters
  let wp := updateLoop3 0 zl p.1 p.2.wrong_placed_letters
  (p.1, { guessed_letters := p.2.guessed_letters
          wrong_placed_letters := wp
          bad_letters := bad })

/-- First loop of `WordleUtils._isValidOption`, over `enumerate(option.word)`
with the index explicit: bad letters, fixed (green) letters, per-position
misplacement sets, and the two letter-frequency consistency branches.
Python indexes `guessed_letters[i]` and `wrong_placed_letters[i]` directly
(both have length 5 whenever this runs); the embedding reads them with
defaults `none` and `[]`. -/
def validChars (o : WordleOption) (gc rc : Char → Nat) (gl : List (Option Char))
    (wp : List (List Char)) (bad : List Char) : Nat → List Char → Bool
  | _, [] => true
  | i, c :: rest =>
    if bad.contains c then false
    else if (gl.getD i none).isSome ∧ gl.getD i none ≠ some c then false
    else if (wp.getD i []).contains c then false
    else if gc c ≥ o.letters c then
      if rc c ≠ o.letters c then false
      else validChars o gc rc gl wp bad (i + 1) rest
    else if gc c > 0 then
      if rc c ≠ gc c then false
      else validChars o gc rc gl wp bad (i + 1) rest
    else validChars o gc rc gl wp bad (i + 1) rest

/-- Returns true if the given wordle option could be a valid solution for the
current game (`WordleUtils._isValidOption`): the per-position letter loop,
then `for char, count in result_counts.items()` (whose key list is passed in
as `rcKeys`), then the check that every wrongly-placed letter appears in the
option. -/
def isValidOption (o : WordleOption) (gc rc : Char → Nat) (rcKeys : List Char)
    (gl : List (Option Char)) (wp : List (List Char)) (bad : List Char) : Bool :=
  validChars o gc rc gl wp bad 0 o.word &&
  rcKeys.all (fun c => !(rc c > 0 && !(o.word.contains c))) &&
  (List.range 5).all (fun i => (wp.getD i []).all (fun c => o.word.contains c))

/-- Filters the current remaining options, removing each option for which
`_isValidOption` fails (`WordleGame.filterOptions`; the Python loop iterates
a copy of the set and removes failing members in place, which on the list
embedding keeps exactly the passing members in order). -/
def filterOptions (options : List WordleOption) (gc rc : Char → Nat)
    (rcKeys : List Char) (gl : List (Option Char)) (wp : List (List Char))
    (bad : List Char) : List WordleOption :=
  match options with
  | [] => []
  | o :: rest =>
    if isValidOption o gc rc rcKeys gl wp bad then
      o :: filterOptions rest gc rc rcKeys gl wp bad
    else filterOptions rest gc rc rcKeys gl wp bad

/-- Modelled from the spec: `WordleUtils.filter`, called by
`EntropyWordleCompletion._calcEntropy`, is not present under src/ (only its
caller is).  Per spec section 4.2 the Candidate Filter maps
`(catalog, guess, coloring)` to the sub-catalog consistent with the coloring,
using per-guess letter result counts with fresh per-call tracking state; the
`remaining_map` index argument is only the position-bucket optimisation of
the same membership test.  This is exactly the composition of the src
functions `updateCountsHelper` (from fresh trackers, with
`guessed_counts = guess.letters.copy()`) and `filterOptions`. -/
def filterCatalog (options : List WordleOption) (guess : WordleOption)
    (coloring : List Color) : List WordleOption :=
  let p := updateCountsHelper guess.word coloring freshTrackers
  filterOptions options (fun c => guess.word.count c) p.1
    ((guess.word.zip coloring).map Prod.fst)
    p.2.guessed_letters p.2.wrong_placed_letters p.2.bad_letters

example :
    filterCatalog [⟨"slate".toList⟩, ⟨"crane".toList⟩] ⟨"crane".toList⟩
      (validateGuess "crane".toList "slate".toList) = [⟨"slate".toList⟩] := by
  decide

example :
    filterCatalog [⟨"aaaaa".toList⟩, ⟨"bbbbb".toList⟩] ⟨"aaaaa".toList⟩
      (validateGuess "aaaaa".toList "aaaaa".toList) = [⟨"aaaaa".toList⟩] := by
  decide

/-! ### Counting lemmas for the two-pass coloring rule -/

/-- Number of positions where guess and solution agree on the letter `c`. -/
def matchCount (g s : List Char) (c : Char) : Nat :=
  (g.zip s).countP (fun p => decide (p.1 = p.2 ∧ p.1 = c))

/-- Number of occurrences of `c` in the guess that the coloring marks
Green or Yellow (the result count accumulated by `updateCountsHelper`). -/
def coloredCount (g : List Char) (res : List Color) (c : Char) : Nat :=
  (g.zip res).countP (fun p => decide (p.1 = c ∧ p.2 ≠ Color.Grey))

/-- Number of occurrences of `c` in the guess marked Yellow. -/
def yellowCount (g : List Char) (res : List Color) (c : Char) : Nat :=
  (g.zip res).countP (fun p => decide (p.1 = c ∧ p.2 = Color.Yellow))

/-- Number of occurrences of `c` in the guess marked Green. -/
def greenCount (g : List Char) (res : List Color) (c : Char) : Nat :=
  (g.zip res).countP (fun p => decide (p.1 = c ∧ p.2 = Color.Green))

/-- Number of occurrences of `c` in the guess not marked Green. -/
def nonGreenCount (g : List Char) (res : List Color) (c : Char) : Nat :=
  (g.zip res).countP (fun p => decide (p.1 = c ∧ p.2 ≠ Color.Green))

/-- Exact-position marker used to describe pass 1. -/
def mark (a b : Char) : Color := if a = b then Color.Green else Color.Grey

theorem pass1_fst (g s : List Char) (cnt : Char → Int) :
    (pass1 g s cnt).1 = List.zipWith mark g s := by
  induction g generalizing s cnt with
  | nil => cases s <;> simp [pass1]
  | cons a gs ih =>
    cases s with
    | nil => simp [pass1]
    | cons b ss =>
      by_cases h : a = b <;> simp [pass1, h, mark, ih]

theorem matchCount_cons (a b : Char) (gs ss : List Char) (c : Char) :
    matchCount (a :: gs) (b :: ss) c =
      matchCount gs ss c + (if a = b ∧ a = c then 1 else 0) := by
  simp [matchCount, List.countP_cons]

theorem count_cons_char (b c : Char) (ss : List Char) :
    (b :: ss).count c = ss.count c + if b = c then 1 else 0 := by
  rw [List.count_cons]
  by_cases h : b = c
  · subst h; simp
  · have hcb : ¬ c = b := fun hh => h hh.symm
    simp [h, hcb]

theorem pass1_snd (g s : List Char) (cnt : Char → Int) (c : Char) :
    (pass1 g s cnt).2 c = cnt c - (matchCount g s c : Int) := by
  induction g generalizing s cnt with
  | nil => cases s <;> simp [pass1, matchCount]
  | cons a gs ih =>
    cases s with
    | nil => simp [pass1, matchCount]
    | cons b ss =>
      rw [matchCount_cons]
      by_cases h : a = b
      · subst h
        have hstep : pass1 (a :: gs) (a :: ss) cnt =
            (Color.Green :: (pass1 gs ss (decr cnt a)).1, (pass1 gs ss (decr cnt a)).2) := by
          simp [pass1]
        rw [hstep, ih]
        by_cases hc : a = c
        · subst hc
          simp [decr]
          ring
        · have hcc : ¬ c = a := fun hh => hc hh.symm
          simp [decr, hcc, hc]
      · have hstep : pass1 (a :: gs) (b :: ss) cnt =
            (Color.Grey :: (pass1 gs ss cnt).1, (pass1 gs ss cnt).2) := by
          simp [pass1, h]
        rw [hstep, ih]
        simp [h]

theorem matchCount_le_right (g s : List Char) (c : Char) :
    matchCount g s c ≤ s.count c := by
  induction g generalizing s with
  | nil => cases s <;> simp [matchCount]
  | cons a gs ih =>
    cases s with
    | nil => simp [matchCount]
    | cons b ss =>
      rw [matchCount_cons, count_cons_char]
      have hih := ih ss
      by_cases h1 : a = b
      · subst h1
        by_cases hc : a = c
        · subst hc
          simp
          omega
        · simp [hc]
          omega
      · simp [h1]
        by_cases hbc : b = c
        · simp [hbc]
          omega
        · simp [hbc]
          omega

theorem coloredCount_cons (a : Char) (col : Color) (gs : List Char) (rs : List Color)
    (c : Char) :
    coloredCount (a :: gs) (col :: rs) c =
      coloredCount gs rs c + (if a = c ∧ col ≠ Color.Grey then 1 else 0) := by
  simp [coloredCount, List.countP_cons]

theorem yellowCount_cons (a : Char) (col : Color) (gs : List Char) (rs : List Color)
    (c : Char) :
    yellowCount (a :: gs) (col :: rs) c =
      yellowCount gs rs c + (if a = c ∧ col = Color.Yellow then 1 else 0) := by
  simp [yellowCount, List.countP_cons]

theorem greenCount_cons (a : Char) (col : Color) (gs : List Char) (rs : List Color)
    (c : Char) :
    greenCount (a :: gs) (col :: rs) c =
      greenCount gs rs c + (if a = c ∧ col = Color.Green then 1 else 0) := by
  simp [greenCount, List.countP_cons]

theorem nonGreenCount_cons (a : Char) (col : Color) (gs : List Char) (rs : List Color)
    (c : Char) :
    nonGreenCount (a :: gs) (col :: rs) c =
      nonGreenCount gs rs c + (if a = c ∧ col ≠ Color.Green then 1 else 0) := by
  simp [nonGreenCount, List.countP_cons]

theorem coloredCount_eq_green_add_yellow (g : List Char) (rs : List Color) (c : Char) :
    coloredCount g rs c = greenCount g rs c + yellowCount g rs c := by
  induction g generalizing rs with
  | nil => cases rs <;> simp [coloredCount, greenCount, yellowCount]
  | cons a gs ih =>
    cases rs with
    | nil => simp [coloredCount, greenCount, yellowCount]
    | cons col rest =>
      rw [coloredCount_cons, greenCount_cons, yellowCount_cons, ih]
      cases col <;> by_cases hc : a = c <;> simp [hc] <;> omega

theorem pass2_cons_green (a : Char) (gs : List Char) (rest : List Color)
    (cnt : Char → Int) :
    pass2 (a :: gs) (Color.Green :: rest) cnt = Color.Green :: pass2 gs rest cnt := by
  simp [pass2]

theorem pass2_cons_pos (a : Char) (gs : List Char) (col : Color) (rest : List Color)
    (cnt : Char → Int) (hcol : col ≠ Color.Green) (hcnt : cnt a > 0) :
    pass2 (a :: gs) (col :: rest) cnt = Color.Yellow :: pass2 gs rest (decr cnt a) := by
  simp [pass2, hcol, hcnt]

theorem pass2_cons_nonpos (a : Char) (gs : List Char) (col : Color) (rest : List Color)
    (cnt : Char → Int) (hcol : col ≠ Color.Green) (hcnt : ¬ cnt a > 0) :
    pass2 (a :: gs) (col :: rest) cnt = Color.Grey :: pass2 gs rest cnt := by
  simp [pass2, hcol, hcnt]

theorem pass2_greenCount (g : List Char) (cs : List Color) (cnt : Char → Int)
    (c : Char) :
    greenCount g (pass2 g cs cnt) c = greenCount g cs c := by
  induction g generalizing cs cnt with
  | nil => cases cs <;> simp [pass2, greenCount]
  | cons a gs ih =>
    cases cs with
    | nil => simp [pass2, greenCount]
    | cons col rest =>
      by_cases hcol : col = Color.Green
      · subst hcol
        rw [pass2_cons_green, greenCount_cons, greenCount_cons, ih]
      · by_cases hcnt : cnt a > 0
        · rw [pass2_cons_pos a gs col rest cnt hcol hcnt,
            greenCount_cons, greenCount_cons, ih]
          simp [hcol]
        · rw [pass2_cons_nonpos a gs col rest cnt hcol hcnt,
            greenCount_cons, greenCount_cons, ih]
          simp [hcol]

theorem pass2_yellowCount (g : List Char) (cs : List Color) (cnt : Char → Int)
    (c : Char) :
    yellowCount g (pass2 g cs cnt) c =
      min (cnt c).toNat (nonGreenCount g cs c) := by
  induction g generalizing cs cnt with
  | nil => cases cs <;> simp [pass2, yellowCount, nonGreenCount]
  | cons a gs ih =>
    cases cs with
    | nil => simp [pass2, yellowCount, nonGreenCount]
    | cons col rest =>
      by_cases hcol : col = Color.Green
      · subst hcol
        rw [pass2_cons_green, yellowCount_cons, nonGreenCount_cons, ih]
        simp
      · by_cases hcnt : cnt a > 0
        · rw [pass2_cons_pos a gs col rest cnt hcol hcnt,
            yellowCount_cons, nonGreenCount_cons, ih]
          by_cases hc : a = c
          · subst hc
            simp [decr, hcol]
            omega
          · have hca : ¬ c = a := fun hh => hc hh.symm
            simp [decr, hc, hca]
        · rw [pass2_cons_nonpos a gs col rest cnt hcol hcnt,
            yellowCount_cons, nonGreenCount_cons, ih]
          by_cases hc : a = c
          · subst hc
            simp [hcol]
            omega
          · simp [hc]

theorem greenCount_mark (g s : List Char) (c : Char) :
    greenCount g (List.zipWith mark g s) c = matchCount g s c := by
  induction g generalizing s with
  | nil => cases s <;> simp [greenCount, matchCount]
  | cons a gs ih =>
    cases s with
    | nil => simp [greenCount, matchCount]
    | cons b ss =>
      simp only [List.zipWith_cons_cons]
      rw [greenCount_cons, matchCount_cons, ih]
      by_cases h : a = b <;> simp [mark, h]

theorem nonGreenCount_mark (g s : List Char) (h : g.length = s.length) (c : Char) :
    nonGreenCount g (List.zipWith mark g s) c + matchCount g s c = g.count c := by
  induction g generalizing s with
  | nil => cases s <;> simp [nonGreenCount, matchCount]
  | cons a gs ih =>
    cases s with
    | nil => simp at h
    | cons b ss =>
      simp only [List.zipWith_cons_cons]
      rw [nonGreenCount_cons, matchCount_cons, count_cons_char]
      have hih := ih ss (by simpa using h)
      by_cases hab : a = b
      · subst hab
        by_cases hc : a = c
        · subst hc
          simp [mark]
          omega
        · have hc2 : ¬ c = a := fun hh => hc hh.symm
          simp [mark, hc, hc2]
          omega
      · have hab2 : ¬ b = a := fun hh => hab hh.symm
        by_cases hc : a = c
        · subst hc
          by_cases hbc : b = a
          · exact absurd hbc hab2
          · have hbc2 : ¬ a = b := hab
            simp [mark, hab, hab2]
            omega
        · have hc2 : ¬ c = a := fun hh => hc hh.symm
          by_cases hbc : b = c
          · subst hbc
            simp [mark, hab, hab2, hc, hc2]
            omega
          · have hbc2 : ¬ c = b := fun hh => hbc hh.symm
            simp [mark, hab, hab2, hc, hc2, hbc, hbc2]
            omega

theorem validateGuess_eq_pass2 (g s : List Char) :
    validateGuess g s =
      pass2 g (List.zipWith mark g s)
        (fun c => (s.count c : Int) - (matchCount g s c : Int)) := by
  show pass2 g (pass1 g s fun c => (s.count c : Int)).1
      (pass1 g s fun c => (s.count c : Int)).2 = _
  rw [pass1_fst]
  congr 1
  funext c
  rw [pass1_snd]

theorem validateGuess_coloredCount (g s : List Char) (h : g.length = s.length)
    (c : Char) :
    coloredCount g (validateGuess g s) c = min (g.count c) (s.count c) := by
  rw [validateGuess_eq_pass2, coloredCount_eq_green_add_yellow, pass2_greenCount,
    pass2_yellowCount, greenCount_mark]
  have h1 := nonGreenCount_mark g s h c
  have h2 := matchCount_le_right g s c
  omega

theorem pass2_length (g : List Char) (cs : List Color) (cnt : Char → Int) :
    (pass2 g cs cnt).length = min g.length cs.length := by
  induction g generalizing cs cnt with
  | nil => cases cs <;> simp [pass2]
  | cons a gs ih =>
    cases cs with
    | nil => simp [pass2]
    | cons col rest =>
      by_cases hcol : col = Color.Green
      · subst hcol
        rw [pass2_cons_green]
        simp only [List.length_cons, ih]
        omega
      · by_cases hcnt : cnt a > 0
        · rw [pass2_cons_pos a gs col rest cnt hcol hcnt]
          simp only [List.length_cons, ih]
          omega
        · rw [pass2_cons_nonpos a gs col rest cnt hcol hcnt]
          simp only [List.length_cons, ih]
          omega

theorem validateGuess_length (g s : List Char) (h : g.length = s.length) :
    (validateGuess g s).length = g.length := by
  rw [validateGuess_eq_pass2, pass2_length]
  simp [h]

theorem pass2_get?_green (g : List Char) (cs : List Color) (cnt : Char → Int)
    (j : Nat) :
    (pass2 g cs cnt).get? j = some Color.Green ↔
      cs.get? j = some Color.Green ∧ j < g.length := by
  induction g generalizing cs cnt j with
  | nil => cases cs <;> simp [pass2]
  | cons a gs ih =>
    cases cs with
    | nil => simp [pass2]
    | cons col rest =>
      by_cases hcol : col = Color.Green
      · subst hcol
        rw [pass2_cons_green]
        cases j with
        | zero => simp
        | succ n => simpa [Nat.succ_lt_succ_iff] using ih rest cnt n
      · cases j with
        | zero =>
          by_cases hcnt : cnt a > 0
          · rw [pass2_cons_pos a gs col rest cnt hcol hcnt]
            simp [hcol]
          · rw [pass2_cons_nonpos a gs col rest cnt hcol hcnt]
            simp [hcol]
        | succ n =>
          by_cases hcnt : cnt a > 0
          · rw [pass2_cons_pos a gs col rest cnt hcol hcnt]
            simpa [Nat.succ_lt_succ_iff] using ih rest (decr cnt a) n
          · rw [pass2_cons_nonpos a gs col rest cnt hcol hcnt]
            simpa [Nat.succ_lt_succ_iff] using ih rest cnt n

theorem mark_get?_green (g s : List Char) (j : Nat) (hg : j < g.length)
    (hs : j < s.length) :
    ((List.zipWith mark g s).get? j = some Color.Green ↔ g.get? j = s.get? j) := by
  induction g generalizing s j with
  | nil => simp at hg
  | cons a gs ih =>
    cases s with
    | nil => simp at hs
    | cons b ss =>
      cases j with
      | zero =>
        by_cases h : a = b <;> simp [mark, h]
      | succ n =>
        simp only [List.zipWith_cons_cons, List.get?_cons_succ]
        exact ih ss n (by simpa using hg) (by simpa using hs)

theorem validateGuess_get?_green (g s : List Char) (h : g.length = s.length)
    (j : Nat) (hj : j < g.length) :
    ((validateGuess g s).get? j = some Color.Green ↔ g.get? j = s.get? j) := by
  rw [validateGuess_eq_pass2, pass2_get?_green]
  have hmk := mark_get?_green g s j hj (h ▸ hj)
  constructor
  · intro hc
    exact hmk.mp hc.1
  · intro h1
    exact ⟨hmk.mpr h1, hj⟩

/-! ### Closed forms for the tracker update from fresh state -/

theorem set_append_length {α : Type} (A : List α) (b : α) (B : List α) (v : α) :
    (A ++ b :: B).set A.length v = A ++ v :: B := by
  induction A with
  | nil => simp
  | cons a rest ih => simp [List.set, ih]

theorem getD_append_length {α : Type} (A : List α) (b : α) (B : List α) (d : α) :
    (A ++ b :: B).getD A.length d = b := by
  induction A with
  | nil => simp [List.getD]
  | cons a rest ih => simpa [List.getD] using ih

theorem updateLoop1_rc (l : List (Char × Color)) (i : Nat) (rc : Char → Nat)
    (t : Trackers) (c : Char) :
    (updateLoop1 i l rc t).1 c =
      rc c + l.countP (fun p => decide (p.1 = c ∧ p.2 ≠ Color.Grey)) := by
  induction l generalizing i rc t with
  | nil => simp [updateLoop1]
  | cons p rest ih =>
    obtain ⟨a, col⟩ := p
    rcases col with _ | _ | _
    · simp only [updateLoop1, reduceCtorEq, if_false, List.countP_cons]
      rw [ih]
      simp
    · simp only [updateLoop1, reduceCtorEq, if_false, if_true, List.countP_cons]
      rw [ih]
      by_cases hc : a = c
      · subst hc
        simp [bump]
        omega
      · have hc2 : ¬ c = a := fun hh => hc hh.symm
        simp [bump, hc, hc2]
    · simp only [updateLoop1, if_true, List.countP_cons]
      rw [ih]
      by_cases hc : a = c
      · subst hc
        simp [bump]
        omega
      · have hc2 : ¬ c = a := fun hh => hc hh.symm
        simp [bump, hc, hc2]

theorem updateLoop1_bad (l : List (Char × Color)) (i : Nat) (rc : Char → Nat)
    (t : Trackers) :
    (updateLoop1 i l rc t).2.bad_letters = t.bad_letters := by
  induction l generalizing i rc t with
  | nil => simp [updateLoop1]
  | cons p rest ih =>
    obtain ⟨a, col⟩ := p
    rcases col with _ | _ | _ <;> simp [updateLoop1, ih]

theorem updateLoop1_gl (l : List (Char × Color)) (rc : Char → Nat) (t : Trackers)
    (A B : List (Option Char)) (hA : t.guessed_letters = A ++ B)
    (hB : B.length = l.length) :
    (updateLoop1 A.length l rc t).2.guessed_letters =
      A ++ List.zipWith
        (fun (p : Char × Color) b => if p.2 = Color.Green then some p.1 else b) l B := by
  induction l generalizing rc t A B with
  | nil =>
    have hBnil : B = [] := List.length_eq_zero.mp hB
    subst hBnil
    simpa [updateLoop1] using hA
  | cons p rest ih =>
    obtain ⟨a, col⟩ := p
    cases B with
    | nil => simp at hB
    | cons b B2 =>
      have hB2 : B2.length = rest.length := by simpa using hB
      rcases col with _ | _ | _
      · have hstep := ih rc { t with guessed_letters := t.guessed_letters }
          (A ++ [b]) B2 (by simp [hA]) hB2
        simp only [updateLoop1, reduceCtorEq, if_false] at hstep ⊢
        rw [show A.length + 1 = (A ++ [b]).length by simp, hstep]
        simp
      · have hstep := ih (bump rc a)
          { t with wrong_placed_letters := addAt t.wrong_placed_letters A.length a }
          (A ++ [b]) B2 (by simp [hA]) hB2
        simp only [updateLoop1, reduceCtorEq, if_false, if_true] at hstep ⊢
        rw [show A.length + 1 = (A ++ [b]).length by simp, hstep]
        simp
      · have hset : ({ t with guessed_letters :=
            t.guessed_letters.set A.length (some a) } : Trackers).guessed_letters =
            (A ++ [some a]) ++ B2 := by
          simp [hA, set_append_length]
        have hstep := ih (bump rc a)
          { t with guessed_letters := t.guessed_letters.set A.length (some a) }
          (A ++ [some a]) B2 hset hB2
        simp only [updateLoop1, if_true] at hstep ⊢
        rw [show A.length + 1 = (A ++ [some a]).length by simp, hstep]
        simp

theorem updateLoop1_wp (l : List (Char × Color)) (rc : Char → Nat) (t : Trackers)
    (A B : List (List Char)) (hA : t.wrong_placed_letters = A ++ B)
    (hB : B.length = l.length) :
    (updateLoop1 A.length l rc t).2.wrong_placed_letters =
      A ++ List.zipWith
        (fun (p : Char × Color) b => if p.2 = Color.Yellow then p.1 :: b else b) l B := by
  induction l generalizing rc t A B with
  | nil =>
    have hBnil : B = [] := List.length_eq_zero.mp hB
    subst hBnil
    simpa [updateLoop1] using hA
  | cons p rest ih =>
    obtain ⟨a, col⟩ := p
    cases B with
    | nil => simp at hB
    | cons b B2 =>
      have hB2 : B2.length = rest.length := by simpa using hB
      rcases col with _ | _ | _
      · have hstep := ih rc t (A ++ [b]) B2 (by simp [hA]) hB2
        simp only [updateLoop1, reduceCtorEq, if_false] at hstep ⊢
        rw [show A.length + 1 = (A ++ [b]).length by simp, hstep]
        simp
      · have hset : ({ t with wrong_placed_letters := addAt t.wrong_placed_letters A.length a } : Trackers).wrong_placed_letters = (A ++ [a :: b]) ++ B2 := by
          show addAt t.wrong_placed_letters A.length a = _
          rw [hA]
          unfold addAt
          rw [getD_append_length, set_append_length]
          simp
        have hstep := ih (bump rc a)
          { t with wrong_placed_letters := addAt t.wrong_placed_letters A.length a }
          (A ++ [a :: b]) B2 hset hB2
        simp only [updateLoop1, reduceCtorEq, if_false, if_true] at hstep ⊢
        rw [show A.length + 1 = (A ++ [a :: b]).length by simp, hstep]
        simp
      · have hstep := ih (bump rc a)
          { t with guessed_letters := t.guessed_letters.set A.length (some a) }
          (A ++ [b]) B2 (by simp [hA]) hB2
        simp only [updateLoop1, if_true] at hstep ⊢
        rw [show A.length + 1 = (A ++ [b]).length by simp, hstep]
        simp

theorem updateLoop3_wp (l : List (Char × Color)) (rc : Char → Nat)
    (A B : List (List Char)) (hB : B.length = l.length) :
    updateLoop3 A.length l rc (A ++ B) =
      A ++ List.zipWith
        (fun (p : Char × Color) b =>
          if p.2 = Color.Grey ∧ rc p.1 > 0 then p.1 :: b else b) l B := by
  induction l generalizing A B with
  | nil =>
    have hBnil : B = [] := List.length_eq_zero.mp hB
    subst hBnil
    simp [updateLoop3]
  | cons p rest ih =>
    obtain ⟨a, col⟩ := p
    cases B with
    | nil => simp at hB
    | cons b B2 =>
      have hB2 : B2.length = rest.length := by simpa using hB
      by_cases hcase : col = Color.Grey ∧ rc a > 0
      · have haddAt : addAt (A ++ b :: B2) A.length a = (A ++ [a :: b]) ++ B2 := by
          unfold addAt
          rw [getD_append_length, set_append_length]
          simp
        have hstep := ih (A ++ [a :: b]) B2 hB2
        simp only [updateLoop3, if_pos hcase, haddAt]
        rw [show A.length + 1 = (A ++ [a :: b]).length by simp, hstep]
        simp [hcase]
      · have hstep := ih (A ++ [b]) B2 hB2
        simp only [updateLoop3, if_neg hcase]
        rw [show A.length + 1 = (A ++ [b]).length by simp]
        rw [show A ++ b :: B2 = (A ++ [b]) ++ B2 by simp, hstep]
        simp [hcase]

theorem updateLoop2_mem (keys : List Char) (rc : Char → Nat) (bad : List Char)
    (x : Char) :
    x ∈ updateLoop2 keys rc bad ↔ (x ∈ keys ∧ rc x = 0) ∨ x ∈ bad := by
  induction keys generalizing bad with
  | nil => simp [updateLoop2]
  | cons c rest ih =>
    show x ∈ updateLoop2 rest rc (if rc c = 0 then c :: bad else bad) ↔ _
    rw [ih]
    by_cases hc : rc c = 0
    · simp only [if_pos hc, List.mem_cons]
      constructor
      · rintro (⟨h1, h2⟩ | (rfl | h2))
        · exact Or.inl ⟨Or.inr h1, h2⟩
        · exact Or.inl ⟨Or.inl rfl, hc⟩
        · exact Or.inr h2
      · rintro (⟨h1 | h1, h2⟩ | h2)
        · exact Or.inr (Or.inl h1)
        · exact Or.inl ⟨h1, h2⟩
        · exact Or.inr (Or.inr h2)
    · simp only [if_neg hc, List.mem_cons]
      constructor
      · rintro (⟨h1, h2⟩ | h2)
        · exact Or.inl ⟨Or.inr h1, h2⟩
        · exact Or.inr h2
      · rintro (⟨h1 | h1, h2⟩ | h2)
        · subst h1
          exact absurd h2 hc
        · exact Or.inl ⟨h1, h2⟩
        · exact Or.inr h2

theorem zipWith_self_map {α β γ : Type} (f : α → β → γ) (m : α → β) (l : List α) :
    List.zipWith f l (l.map m) = l.map (fun a => f a (m a)) := by
  induction l with
  | nil => simp
  | cons a rest ih => simp [ih]

theorem zipWith_replicate_len {α β γ : Type} (f : α → β → γ) (d : β) (l : List α) :
    List.zipWith f l (List.replicate l.length d) = l.map (fun a => f a d) := by
  induction l with
  | nil => simp
  | cons a rest ih => simp [List.replicate_succ, ih]

theorem zip_get?_some {α β : Type} (g : List α) (res : List β) (j : Nat) (a : α)
    (b : β) (hg : g.get? j = some a) (hr : res.get? j = some b) :
    (g.zip res).get? j = some (a, b) := by
  induction g generalizing res j with
  | nil => simp at hg
  | cons x gs ih =>
    cases res with
    | nil => simp at hr
    | cons y rs =>
      cases j with
      | zero => simp_all
      | succ n => simpa using ih rs n (by simpa using hg) (by simpa using hr)

theorem updateCountsHelper_rc (g : List Char) (res : List Color) (t : Trackers)
    (c : Char) :
    (updateCountsHelper g res t).1 c = coloredCount g res c := by
  show (updateLoop1 0 (g.zip res) (fun _ => 0) t).1 c = _
  rw [updateLoop1_rc]
  simp [coloredCount]

theorem updateCountsHelper_gl (g : List Char) (res : List Color)
    (h5 : (g.zip res).length = 5) :
    (updateCountsHelper g res freshTrackers).2.guessed_letters =
      (g.zip res).map (fun p => if p.2 = Color.Green then some p.1 else none) := by
  show (updateLoop1 0 (g.zip res) (fun _ => 0) freshTrackers).2.guessed_letters = _
  have h := updateLoop1_gl (g.zip res) (fun _ => 0) freshTrackers []
    (List.replicate 5 none) (by simp [freshTrackers]) (by simp [h5])
  rw [show (List.replicate 5 (none : Option Char)) =
      List.replicate (g.zip res).length none by rw [h5],
    zipWith_replicate_len] at h
  simpa using h

theorem updateCountsHelper_wp (g : List Char) (res : List Color)
    (h5 : (g.zip res).length = 5) :
    (updateCountsHelper g res freshTrackers).2.wrong_placed_letters =
      (g.zip res).map (fun p =>
        if p.2 = Color.Grey ∧ coloredCount g res p.1 > 0 then
          p.1 :: (if p.2 = Color.Yellow then [p.1] else [])
        else (if p.2 = Color.Yellow then [p.1] else [])) := by
  show updateLoop3 0 (g.zip res)
      (updateLoop1 0 (g.zip res) (fun _ => 0) freshTrackers).1
      (updateLoop1 0 (g.zip res) (fun _ => 0) freshTrackers).2.wrong_placed_letters = _
  have h1 := updateLoop1_wp (g.zip res) (fun _ => 0) freshTrackers []
    (List.replicate 5 []) (by simp [freshTrackers]) (by simp [h5])
  rw [show (List.replicate 5 ([] : List Char)) =
      List.replicate (g.zip res).length [] by rw [h5],
    zipWith_replicate_len] at h1
  simp only [List.nil_append, List.length_nil] at h1
  rw [h1]
  have h3 := updateLoop3_wp (g.zip res)
    (updateLoop1 0 (g.zip res) (fun _ => 0) freshTrackers).1
    [] ((g.zip res).map fun p => if p.2 = Color.Yellow then p.1 :: [] else [])
    (by simp)
  simp only [List.nil_append, List.length_nil] at h3
  rw [h3, zipWith_self_map]
  apply List.map_congr_left
  intro p _
  rw [updateLoop1_rc]
  simp only [coloredCount, Nat.zero_add]

theorem updateCountsHelper_bad (g : List Char) (res : List Color) (x : Char) :
    x ∈ (updateCountsHelper g res freshTrackers).2.bad_letters ↔
      x ∈ (g.zip res).map Prod.fst ∧ coloredCount g res x = 0 := by
  show x ∈ updateLoop2 ((g.zip res).map Prod.fst)
      (updateLoop1 0 (g.zip res) (fun _ => 0) freshTrackers).1
      freshTrackers.bad_letters ↔ _
  rw [updateLoop2_mem]
  simp [updateLoop1_rc, coloredCount, freshTrackers]

/-! ### The solution always survives its own feedback -/

/-- Conditions under which position `k` with option letter `c` passes every
early-return test of the per-letter loop of `_isValidOption`. -/
def charCond (o : WordleOption) (gc rc : Char → Nat) (gl : List (Option Char))
    (wp : List (List Char)) (bad : List Char) (k : Nat) (c : Char) : Prop :=
  bad.contains c = false ∧
  ¬((gl.getD k none).isSome ∧ gl.getD k none ≠ some c) ∧
  (wp.getD k []).contains c = false ∧
  (gc c ≥ o.letters c → rc c = o.letters c) ∧
  (gc c < o.letters c → gc c > 0 → rc c = gc c)

theorem validChars_all (o : WordleOption) (gc rc : Char → Nat)
    (gl : List (Option Char)) (wp : List (List Char)) (bad : List Char) :
    ∀ (chars : List Char) (i : Nat),
    (∀ j c, chars.get? j = some c → charCond o gc rc gl wp bad (i + j) c) →
    validChars o gc rc gl wp bad i chars = true := by
  intro chars
  induction chars with
  | nil => intro i _; rfl
  | cons c rest ih =>
    intro i hyp
    obtain ⟨hbad, hgl, hwp, hfreq1, hfreq2⟩ := hyp 0 c rfl
    simp only [Nat.add_zero] at hgl hwp
    have hbad2 : c ∉ bad := by simpa using hbad
    have hwp2 : c ∉ wp.getD i [] := by simpa using hwp
    have hrec : validChars o gc rc gl wp bad (i + 1) rest = true := by
      apply ih
      intro j x hx
      have h := hyp (j + 1) x (by simpa using hx)
      have hidx : i + (j + 1) = (i + 1) + j := by omega
      rwa [hidx] at h
    show validChars o gc rc gl wp bad i (c :: rest) = true
    rw [validChars]
    rw [if_neg (by simpa using hbad2), if_neg hgl, if_neg (by simpa using hwp2)]
    by_cases hge : gc c ≥ o.letters c
    · rw [if_pos hge, if_neg (fun hh => hh (hfreq1 hge))]
      exact hrec
    · rw [if_neg hge]
      by_cases hgt : gc c > 0
      · rw [if_pos hgt,
          if_neg (fun hh => hh (hfreq2 (Nat.lt_of_not_le hge) hgt))]
        exact hrec
      · rw [if_neg hgt]
        exact hrec

theorem mem_filterOptions (options : List WordleOption) (gc rc : Char → Nat)
    (rcKeys : List Char) (gl : List (Option Char)) (wp : List (List Char))
    (bad : List Char) (o : WordleOption) :
    o ∈ filterOptions options gc rc rcKeys gl wp bad ↔
      o ∈ options ∧ isValidOption o gc rc rcKeys gl wp bad = true := by
  induction options with
  | nil => simp [filterOptions]
  | cons x rest ih =>
    by_cases hx : isValidOption x gc rc rcKeys gl wp bad = true
    · show o ∈ (if _ then x :: filterOptions rest gc rc rcKeys gl wp bad else _) ↔ _
      rw [if_pos hx]
      constructor
      · intro hmem
        rcases List.mem_cons.mp hmem with rfl | hmem
        · exact ⟨List.mem_cons_self _ _, hx⟩
        · obtain ⟨h1, h2⟩ := ih.mp hmem
          exact ⟨List.mem_cons_of_mem _ h1, h2⟩
      · rintro ⟨h1, h2⟩
        rcases List.mem_cons.mp h1 with rfl | h1
        · exact List.mem_cons_self _ _
        · exact List.mem_cons_of_mem _ (ih.mpr ⟨h1, h2⟩)
    · show o ∈ (if _ then x :: filterOptions rest gc rc rcKeys gl wp bad else
          filterOptions rest gc rc rcKeys gl wp bad) ↔ _
      rw [if_neg hx]
      rw [ih]
      constructor
      · rintro ⟨h1, h2⟩
        exact ⟨List.mem_cons_of_mem _ h1, h2⟩
      · rintro ⟨h1, h2⟩
        rcases List.mem_cons.mp h1 with rfl | h1
        · exact absurd h2 hx
        · exact ⟨h1, h2⟩

theorem sublist_filterOptions (options : List WordleOption) (gc rc : Char → Nat)
    (rcKeys : List Char) (gl : List (Option Char)) (wp : List (List Char))
    (bad : List Char) :
    (filterOptions options gc rc rcKeys gl wp bad).Sublist options := by
  induction options with
  | nil => exact List.Sublist.refl _
  | cons x rest ih =>
    show (if _ then x :: filterOptions rest gc rc rcKeys gl wp bad else
        filterOptions rest gc rc rcKeys gl wp bad).Sublist (x :: rest)
    by_cases hx : isValidOption x gc rc rcKeys gl wp bad = true
    · rw [if_pos hx]
      exact List.Sublist.cons₂ x ih
    · rw [if_neg hx]
      exact List.Sublist.cons x ih

theorem gl_getD_eq (g : List Char) (res : List Color)
    (hzl : (g.zip res).length = 5) (j : Nat) (gj : Char) (resj : Color)
    (hgj : g.get? j = some gj) (hresj : res.get? j = some resj) :
    (updateCountsHelper g res freshTrackers).2.guessed_letters.getD j none =
      (if resj = Color.Green then some gj else none) := by
  have hzlj : (g.zip res).get? j = some (gj, resj) :=
    zip_get?_some g res j gj resj hgj hresj
  have hmap : ((g.zip res).map
      (fun p => if p.2 = Color.Green then some p.1 else none)).get? j =
      some (if resj = Color.Green then some gj else none) := by
    rw [List.get?_map, hzlj]
    rfl
  rw [updateCountsHelper_gl g res hzl]
  show (((g.zip res).map
      (fun p => if p.2 = Color.Green then some p.1 else none)).get? j).getD none = _
  rw [hmap]
  rfl

theorem wp_getD_eq (g : List Char) (res : List Color)
    (hzl : (g.zip res).length = 5) (j : Nat) (gj : Char) (resj : Color)
    (hgj : g.get? j = some gj) (hresj : res.get? j = some resj) :
    (updateCountsHelper g res freshTrackers).2.wrong_placed_letters.getD j [] =
      (if resj = Color.Grey ∧ coloredCount g res gj > 0 then
        gj :: (if resj = Color.Yellow then [gj] else [])
      else (if resj = Color.Yellow then [gj] else [])) := by
  have hzlj : (g.zip res).get? j = some (gj, resj) :=
    zip_get?_some g res j gj resj hgj hresj
  have hmap : ((g.zip res).map
      (fun p => if p.2 = Color.Grey ∧ coloredCount g res p.1 > 0 then
        p.1 :: (if p.2 = Color.Yellow then [p.1] else [])
      else (if p.2 = Color.Yellow then [p.1] else []))).get? j =
      some (if resj = Color.Grey ∧ coloredCount g res gj > 0 then
        gj :: (if resj = Color.Yellow then [gj] else [])
      else (if resj = Color.Yellow then [gj] else [])) := by
    rw [List.get?_map, hzlj]
    rfl
  rw [updateCountsHelper_wp g res hzl]
  show (((g.zip res).map
      (fun p => if p.2 = Color.Grey ∧ coloredCount g res p.1 > 0 then
        p.1 :: (if p.2 = Color.Yellow then [p.1] else [])
      else (if p.2 = Color.Yellow then [p.1] else []))).get? j).getD [] = _
  rw [hmap]
  rfl

theorem exists_get?_of_lt {α : Type} (l : List α) (j : Nat) (h : j < l.length) :
    ∃ x, l.get? j = some x :=
  ⟨l.get ⟨j, h⟩, List.get?_eq_get h⟩

theorem isValidOption_self (g s : List Char) (hg : g.length = 5)
    (hs : s.length = 5) :
    isValidOption ⟨s⟩ (fun c => g.count c)
      (updateCountsHelper g (validateGuess g s) freshTrackers).1
      ((g.zip (validateGuess g s)).map Prod.fst)
      (updateCountsHelper g (validateGuess g s) freshTrackers).2.guessed_letters
      (updateCountsHelper g (validateGuess g s) freshTrackers).2.wrong_placed_letters
      (updateCountsHelper g (validateGuess g s) freshTrackers).2.bad_letters = true := by
  have hlen : g.length = s.length := by rw [hg, hs]
  have hres5 : (validateGuess g s).length = 5 := by
    rw [validateGuess_length g s hlen, hg]
  have hzl : (g.zip (validateGuess g s)).length = 5 := by
    rw [List.length_zip g (validateGuess g s), hg, hres5]
    omega
  have hccmin : ∀ x, coloredCount g (validateGuess g s) x =
      min (g.count x) (s.count x) := validateGuess_coloredCount g s hlen
  have hrc : ∀ x, (updateCountsHelper g (validateGuess g s) freshTrackers).1 x =
      min (g.count x) (s.count x) := by
    intro x
    rw [updateCountsHelper_rc, hccmin]
  rw [isValidOption]
  simp only [Bool.and_eq_true]
  refine ⟨⟨?_, ?_⟩, ?_⟩
  · apply validChars_all
    intro j c hsj
    rw [Nat.zero_add]
    obtain ⟨hj, _⟩ := List.get?_eq_some.mp hsj
    have hj5 : j < 5 := by rw [hs] at hj; exact hj
    obtain ⟨gj, hgj⟩ := exists_get?_of_lt g j (by rw [hg]; exact hj5)
    obtain ⟨resj, hresj⟩ := exists_get?_of_lt (validateGuess g s) j
      (by rw [hres5]; exact hj5)
    have hgreen := validateGuess_get?_green g s hlen j (by rw [hg]; exact hj5)
    have hmem_s : c ∈ s := List.get?_mem hsj
    have hcount_s : 0 < s.count c := List.count_pos_iff.mpr hmem_s
    refine ⟨?_, ?_, ?_, ?_, ?_⟩
    · suffices hnb : c ∉
          (updateCountsHelper g (validateGuess g s) freshTrackers).2.bad_letters by
        simpa using hnb
      intro hmemb
      rw [updateCountsHelper_bad] at hmemb
      obtain ⟨hk, hz⟩ := hmemb
      obtain ⟨p, hp, hpe⟩ := List.mem_map.mp hk
      have hcg : c ∈ g := hpe ▸ (List.of_mem_zip hp).1
      have hgc : 0 < g.count c := List.count_pos_iff.mpr hcg
      rw [hccmin] at hz
      omega
    · rw [gl_getD_eq g (validateGuess g s) hzl j gj resj hgj hresj]
      by_cases hgr : resj = Color.Green
      · rw [if_pos hgr]
        have heq : g.get? j = s.get? j := hgreen.mp (by rw [hresj, hgr])
        have hgjc : gj = c := by
          rw [hgj, hsj] at heq
          exact Option.some.inj heq
        rintro ⟨_, hne⟩
        exact hne (by rw [hgjc])
      · rw [if_neg hgr]
        rintro ⟨hsome, _⟩
        simp at hsome
    · have hne : resj ≠ Color.Green → gj ≠ c := by
        intro hng heq
        apply hng
        have : g.get? j = s.get? j := by rw [hgj, hsj, heq]
        have := hgreen.mpr this
        rw [hresj] at this
        exact Option.some.inj this
      rw [wp_getD_eq g (validateGuess g s) hzl j gj resj hgj hresj]
      suffices hcn : c ∉
          (if resj = Color.Grey ∧ coloredCount g (validateGuess g s) gj > 0 then
            gj :: (if resj = Color.Yellow then [gj] else [])
          else (if resj = Color.Yellow then [gj] else [])) by
        simpa using hcn
      rcases resj with _ | _ | _
      · by_cases hcc : coloredCount g (validateGuess g s) gj > 0
        · rw [if_pos ⟨rfl, hcc⟩]
          intro hmm
          rcases List.mem_cons.mp hmm with heq | hmm2
          · exact hne (by intro hh; cases hh) heq.symm
          · simp at hmm2
        · rw [if_neg (fun hh => hcc hh.2)]
          simp
      · rw [if_neg (fun hh => by cases hh.1)]
        rw [if_pos rfl]
        intro hmm
        rcases List.mem_cons.mp hmm with heq | hmm2
        · exact hne (by intro hh; cases hh) heq.symm
        · simp at hmm2
      · rw [if_neg (fun hh => by cases hh.1), if_neg (by intro hh; cases hh)]
        simp
    · intro hge
      rw [hrc]
      show min (g.count c) (s.count c) = s.count c
      have hge2 : g.count c ≥ s.count c := hge
      omega
    · intro hlt hgt
      rw [hrc]
      show min (g.count c) (s.count c) = g.count c
      have hlt2 : g.count c < s.count c := hlt
      omega
  · rw [List.all_eq_true]
    intro x hx
    by_cases hpos : (updateCountsHelper g (validateGuess g s) freshTrackers).1 x > 0
    · have hxs : x ∈ s := by
        rw [hrc] at hpos
        have : 0 < s.count x := by omega
        exact List.count_pos_iff.mp this
      simp [hpos, hxs]
    · simp [hpos]
  · rw [List.all_eq_true]
    intro i hi
    have hi5 : i < 5 := List.mem_range.mp hi
    rw [List.all_eq_true]
    intro x hxmem
    obtain ⟨gi, hgi⟩ := exists_get?_of_lt g i (by rw [hg]; exact hi5)
    obtain ⟨ri, hri⟩ := exists_get?_of_lt (validateGuess g s) i
      (by rw [hres5]; exact hi5)
    rw [wp_getD_eq g (validateGuess g s) hzl i gi ri hgi hri] at hxmem
    have hkey : x = gi ∧ 0 < coloredCount g (validateGuess g s) gi := by
      rcases ri with _ | _ | _
      · by_cases hcc : coloredCount g (validateGuess g s) gi > 0
        · rw [if_pos ⟨rfl, hcc⟩] at hxmem
          rcases List.mem_cons.mp hxmem with heq | hmm2
          · exact ⟨heq, hcc⟩
          · simp at hmm2
        · rw [if_neg (fun hh => hcc hh.2)] at hxmem
          simp at hxmem
      · rw [if_neg (fun hh => by cases hh.1), if_pos rfl] at hxmem
        rcases List.mem_cons.mp hxmem with heq | hmm2
        · refine ⟨heq, ?_⟩
          have hzmem : (gi, Color.Yellow) ∈ g.zip (validateGuess g s) :=
            List.get?_mem (zip_get?_some g (validateGuess g s) i gi Color.Yellow hgi hri)
          exact List.countP_pos_iff.mpr ⟨(gi, Color.Yellow), hzmem, by simp⟩
        · simp at hmm2
      · rw [if_neg (fun hh => by cases hh.1), if_neg (by intro hh; cases hh)] at hxmem
        simp at hxmem
    obtain ⟨rfl, hcc⟩ := hkey
    rw [hccmin] at hcc
    have hxs : x ∈ s := List.count_pos_iff.mp (by omega)
    simpa using hxs

/-- C1: for every catalog, every candidate `c` in that catalog, and every
5-letter guess `g`, filtering the catalog with the coloring that
`validateGuess` produces for `g` against `c.word` — starting from fresh
per-session tracking state — yields a candidate set that still contains `c`:
the true solution is never eliminated by its own feedback. -/
theorem C1_filter_never_eliminates_solution (catalog : List WordleOption)
    (g : List Char) (c : WordleOption) (hg : g.length = 5)
    (hc : c.word.length = 5) (hmem : c ∈ catalog) :
    c ∈ filterCatalog catalog ⟨g⟩ (validateGuess g c.word) := by
  show c ∈ filterOptions catalog _ _ _ _ _ _
  rw [mem_filterOptions]
  exact ⟨hmem, isValidOption_self g c.word hg hc⟩

/-- C1 witness: the solution "slate" survives filtering by the feedback of
guess "crane" against it, inside the catalog {slate, crane}. -/
theorem C1_filter_never_eliminates_solution_witness :
    (⟨"slate".toList⟩ : WordleOption) ∈
      filterCatalog [⟨"slate".toList⟩, ⟨"crane".toList⟩] ⟨"crane".toList⟩
        (validateGuess "crane".toList "slate".toList) :=
  C1_filter_never_eliminates_solution [⟨"slate".toList⟩, ⟨"crane".toList⟩]
    "crane".toList ⟨"slate".toList⟩ (by decide) (by decide) (by decide)

/-- C2 counterexample: the claim says filtering leaves all other game state,
such as the per-position letter trackers, unmodified; but updating the counts
for guess "crane" with result [Green, Grey, Grey, Grey, Grey] changes the
trackers (it records the green letter and the bad letters). -/
theorem C2_trackers_modified_counterexample :
    (updateCountsHelper "crane".toList
      [Color.Green, Color.Grey, Color.Grey, Color.Grey, Color.Grey]
      freshTrackers).2 ≠ freshTrackers := by decide

/-- C2 (amended): the filtering pass computes the sub-catalog of input
options passing `_isValidOption` — a sublist of the input catalog, with
membership decided by the validity check — while the per-session trackers
are updated by `updateCountsHelper` rather than left unmodified. -/
theorem C2_filterOptions_characterization (options : List WordleOption)
    (gc rc : Char → Nat) (rcKeys : List Char) (gl : List (Option Char))
    (wp : List (List Char)) (bad : List Char) :
    (filterOptions options gc rc rcKeys gl wp bad).Sublist options ∧
    (∀ o : WordleOption, o ∈ filterOptions options gc rc rcKeys gl wp bad ↔
      o ∈ options ∧ isValidOption o gc rc rcKeys gl wp bad = true) :=
  ⟨sublist_filterOptions options gc rc rcKeys gl wp bad,
   fun o => mem_filterOptions options gc rc rcKeys gl wp bad o⟩

/-- C5 counterexample: the claim says guess "speed" against solution "erase"
must mark only one letter e as Misplaced; the two-pass rule of
`validateGuess` marks two occurrences of e Yellow (no position matches, so
no e is consumed by the Green pass and "erase" has two e letters). -/
theorem C5_two_misplaced_e_counterexample :
    yellowCount "speed".toList (validateGuess "speed".toList "erase".toList) 'e'
      = 2 := by decide

/-- C5 (amended): guess "speed" against solution "erase" marks both
occurrences of e Misplaced; the exact symbol sequence is
[Misplaced, Absent, Misplaced, Misplaced, Absent]. -/
theorem C5_speed_erase_exact_coloring :
    validateGuess "speed".toList "erase".toList =
      [Color.Yellow, Color.Grey, Color.Yellow, Color.Yellow, Color.Grey] := by
  decide

/-- C10: for 5-letter words, the Feedback Simulator returns a coloring with
five Greens — the success test `Counter(results).get(Green, 0) == 5` of the
game loop — if and only if the guess equals the solution. -/
theorem C10_all_green_iff_eq (g s : List Char) (hg : g.length = 5)
    (hs : s.length = 5) :
    (validateGuess g s).count Color.Green = 5 ↔ g = s := by
  have hlen : g.length = s.length := by rw [hg, hs]
  have hres5 : (validateGuess g s).length = 5 := by
    rw [validateGuess_length g s hlen, hg]
  constructor
  · intro hcount
    have hall : ∀ b ∈ validateGuess g s, Color.Green = b :=
      List.count_eq_length.mp (by rw [hcount, hres5])
    apply List.ext_get?
    intro j
    by_cases hj : j < 5
    · obtain ⟨rj, hrj⟩ := exists_get?_of_lt (validateGuess g s) j
        (by rw [hres5]; exact hj)
      have : Color.Green = rj := hall rj (List.get?_mem hrj)
      exact (validateGuess_get?_green g s hlen j (by rw [hg]; exact hj)).mp
        (by rw [hrj, ← this])
    · rw [List.get?_eq_none.mpr (by rw [hg]; omega),
        List.get?_eq_none.mpr (by rw [hs]; omega)]
  · intro heq
    apply List.count_eq_length.mpr ?_ |>.trans hres5
    intro b hb
    obtain ⟨j, hj⟩ := List.mem_iff_get?.mp hb
    have hjlt : j < 5 := by
      obtain ⟨h1, _⟩ := List.get?_eq_some.mp hj
      rw [hres5] at h1
      exact h1
    have := (validateGuess_get?_green g s hlen j (by rw [hg]; exact hjlt)).mpr
      (by rw [heq])
    rw [hj] at this
    exact (Option.some.inj this).symm

/-- C10 witness: guessing the solution itself produces the five-Green
coloring, and a wrong guess of the same letters does not. -/
theorem C10_all_green_iff_eq_witness :
    (validateGuess "crane".toList "crane".toList).count Color.Green = 5 :=
  (C10_all_green_iff_eq "crane".toList "crane".toList (by decide) (by decide)).mpr
    rfl

/-! ### Validity of simulator colorings under the yellow-ordering rule -/

/-- Scan of `entropyGame.isValidColoring`, over the reversed
`zip(word, coloring)` with the running yellow set: a letter already seen
Yellow later in the word must not be Grey in an earlier position. -/
def yellowScan : List (Char × Color) → List Char → Bool
  | [], _ => true
  | (c, col) :: rest, ys =>
    if ys.contains c ∧ col = Color.Grey then false
    else if col = Color.Yellow then yellowScan rest (c :: ys)
    else yellowScan rest ys

/-- Checks if for a given word the coloring shouldn't be possible
(`isValidColoring` in src/entropyGame.py): iterates
`list(zip(word, coloring))[::-1]` with a set of seen yellows. -/
def isValidColoring (word : List Char) (coloring : List Color) : Bool :=
  yellowScan ((word.zip coloring).reverse) []

example : isValidColoring "speed".toList
    [Color.Grey, Color.Grey, Color.Yellow, Color.Grey, Color.Grey] = true := by
  decide

example : isValidColoring "speed".toList
    [Color.Grey, Color.Grey, Color.Grey, Color.Yellow, Color.Grey] = false := by
  decide

/-- Property of a zipped coloring: after a Grey occurrence of a letter,
no later occurrence of that letter is Yellow. -/
def goodZip (zp : List (Char × Color)) : Prop :=
  ∀ (x : Char) (a b : List (Char × Color)),
    zp = a ++ (x, Color.Grey) :: b → (x, Color.Yellow) ∉ b

theorem no_yellow_of_nonpos (g : List Char) (cs : List Color) (cnt : Char → Int)
    (x : Char) (hx : cnt x ≤ 0) :
    (x, Color.Yellow) ∉ g.zip (pass2 g cs cnt) := by
  induction g generalizing cs cnt with
  | nil => simp [pass2]
  | cons a gs ih =>
    cases cs with
    | nil => simp [pass2]
    | cons col rest =>
      by_cases hcol : col = Color.Green
      · subst hcol
        rw [pass2_cons_green]
        intro hmem
        rcases List.mem_cons.mp hmem with heq | hmem2
        · cases heq
        · exact ih rest cnt hx hmem2
      · by_cases hcnt : cnt a > 0
        · rw [pass2_cons_pos a gs col rest cnt hcol hcnt]
          intro hmem
          rcases List.mem_cons.mp hmem with heq | hmem2
          · have hax : x = a := (Prod.ext_iff.mp heq).1
            rw [hax] at hx
            omega
          · refine ih rest (decr cnt a) ?_ hmem2
            show (if x = a then cnt x - 1 else cnt x) ≤ 0
            by_cases hxa : x = a
            · rw [if_pos hxa]
              omega
            · rw [if_neg hxa]
              exact hx
        · rw [pass2_cons_nonpos a gs col rest cnt hcol hcnt]
          intro hmem
          rcases List.mem_cons.mp hmem with heq | hmem2
          · cases heq
          · exact ih rest cnt hx hmem2

theorem goodZip_pass2 (g : List Char) (cs : List Color) (cnt : Char → Int) :
    goodZip (g.zip (pass2 g cs cnt)) := by
  induction g generalizing cs cnt with
  | nil => intro x a b h; simp [pass2] at h
  | cons a0 gs ih =>
    cases cs with
    | nil => intro x a b h; simp [pass2] at h
    | cons col rest =>
      by_cases hcol : col = Color.Green
      · subst hcol
        rw [pass2_cons_green]
        intro x a b hsplit
        rw [List.zip_cons_cons] at hsplit
        cases a with
        | nil =>
          simp only [List.nil_append] at hsplit
          cases (List.cons.inj hsplit).1
        | cons y a2 =>
          simp only [List.cons_append] at hsplit
          exact ih rest cnt x a2 b (List.cons.inj hsplit).2
      · by_cases hcnt : cnt a0 > 0
        · rw [pass2_cons_pos a0 gs col rest cnt hcol hcnt]
          intro x a b hsplit
          rw [List.zip_cons_cons] at hsplit
          cases a with
          | nil =>
            simp only [List.nil_append] at hsplit
            cases (List.cons.inj hsplit).1
          | cons y a2 =>
            simp only [List.cons_append] at hsplit
            exact ih rest (decr cnt a0) x a2 b (List.cons.inj hsplit).2
        · rw [pass2_cons_nonpos a0 gs col rest cnt hcol hcnt]
          intro x a b hsplit
          rw [List.zip_cons_cons] at hsplit
          cases a with
          | nil =>
            simp only [List.nil_append] at hsplit
            obtain ⟨h1, h2⟩ := List.cons.inj hsplit
            have hxa : x = a0 := ((Prod.ext_iff.mp h1).1).symm
            rw [← h2]
            exact no_yellow_of_nonpos gs rest cnt x (by rw [hxa]; omega)
          | cons y a2 =>
            simp only [List.cons_append] at hsplit
            exact ih rest cnt x a2 b (List.cons.inj hsplit).2

theorem yellowScan_true (rl : List (Char × Color)) (ys : List Char)
    (hgood : ∀ x a b, rl = a ++ (x, Color.Yellow) :: b → (x, Color.Grey) ∉ b)
    (hys : ∀ x ∈ ys, (x, Color.Grey) ∉ rl) :
    yellowScan rl ys = true := by
  induction rl generalizing ys with
  | nil => rfl
  | cons p rest ih =>
    obtain ⟨c0, col⟩ := p
    rw [yellowScan]
    rw [if_neg ?hfirst]
    case hfirst =>
      rintro ⟨hin, rfl⟩
      exact hys c0 (by simpa using hin) (List.mem_cons_self _ _)
    by_cases hcol : col = Color.Yellow
    · rw [if_pos hcol]
      apply ih
      · intro x a b hsplit
        exact hgood x ((c0, col) :: a) b (by rw [List.cons_append, hsplit])
      · intro x hx
        rcases List.mem_cons.mp hx with rfl | hx2
        · exact hgood x [] rest (by simp [hcol])
        · intro hmem
          exact hys x hx2 (List.mem_cons_of_mem _ hmem)
    · rw [if_neg hcol]
      apply ih
      · intro x a b hsplit
        exact hgood x ((c0, col) :: a) b (by rw [List.cons_append, hsplit])
      · intro x hx
        intro hmem
        exact hys x hx (List.mem_cons_of_mem _ hmem)

theorem goodRev_of_goodZip (zp : List (Char × Color)) (h : goodZip zp) :
    ∀ x a b, zp.reverse = a ++ (x, Color.Yellow) :: b →
      (x, Color.Grey) ∉ b := by
  intro x a b hsplit hmem
  have hzp : zp = b.reverse ++ (x, Color.Yellow) :: a.reverse := by
    have hrev := congrArg List.reverse hsplit
    rw [List.reverse_reverse] at hrev
    rw [hrev]
    simp
  have hmem2 : (x, Color.Grey) ∈ b.reverse := by simpa using hmem
  obtain ⟨u, v, huv⟩ := List.append_of_mem hmem2
  have hz2 : zp = u ++ (x, Color.Grey) ::
      (v ++ (x, Color.Yellow) :: a.reverse) := by
    rw [hzp, huv]
    simp
  exact h x u _ hz2 (by simp)

/-- C6: for every 5-letter guess word and every 5-letter solution word, the
coloring produced by `validateGuess` passes the yellow-ordering validity
check `isValidColoring`, so the pruning never discards real feedback. -/
theorem C6_simulator_coloring_is_valid (g s : List Char) (hg : g.length = 5)
    (hs : s.length = 5) :
    isValidColoring g (validateGuess g s) = true := by
  apply yellowScan_true
  · apply goodRev_of_goodZip
    rw [validateGuess_eq_pass2]
    exact goodZip_pass2 g (List.zipWith mark g s) _
  · intro x hx
    simp at hx

/-- C6 witness: the coloring of guess "speed" against solution "erase"
passes the validity check. -/
theorem C6_simulator_coloring_is_valid_witness :
    isValidColoring "speed".toList
      (validateGuess "speed".toList "erase".toList) = true :=
  C6_simulator_coloring_is_valid "speed".toList "erase".toList
    (by decide) (by decide)

/-! ### Color-name parsing and word-list loading -/

/-- Takes in a color name and outputs the enum value for it
(`WordleGame._mapColorToEnum`): "green" and "yellow" map to their colors;
anything else falls through to Grey. -/
def mapColorToEnum (color : String) : Color :=
  if color = "green" then Color.Green
  else if color = "yellow" then Color.Yellow
  else Color.Grey

/-- Conversion step of `WordleGame._submitGuess`: the comma-split lowercased
color words are mapped elementwise through `_mapColorToEnum`; no length or
symbol validation happens before the result reaches the filter. -/
def submitGuessParse (colorStrs : List String) : List Color :=
  colorStrs.map mapColorToEnum

/-- C7 counterexample: the claim says a coloring of wrong length or with
invalid symbols is rejected; instead a two-symbol input with the invalid
name "blue" parses to a two-symbol coloring with "blue" defaulted to Grey —
no invalid-input condition is signaled. -/
theorem C7_malformed_coloring_defaulted_counterexample :
    submitGuessParse ["green", "blue"] = [Color.Green, Color.Grey] ∧
      (submitGuessParse ["green", "blue"]).length ≠ 5 := by decide

/-- C7 (amended): the core does not reject malformed colorings:
`_submitGuess` returns a coloring of whatever length the input has, and
`_mapColorToEnum` silently defaults every unrecognized color name to Grey. -/
theorem C7_no_rejection_default_grey (l : List String) (s : String)
    (h1 : s ≠ "green") (h2 : s ≠ "yellow") :
    (submitGuessParse l).length = l.length ∧ mapColorToEnum s = Color.Grey := by
  constructor
  · simp [submitGuessParse]
  · simp [mapColorToEnum, h1, h2]

/-- C7 witness: a length-one input with the invalid name "purple" parses to
a length-one coloring, "purple" becoming Grey. -/
theorem C7_no_rejection_default_grey_witness :
    (submitGuessParse ["purple"]).length = 1 ∧
      mapColorToEnum "purple" = Color.Grey :=
  C7_no_rejection_default_grey ["purple"] "purple" (by decide) (by decide)

/-- Strip of newline characters from both ends of a line
(`word.strip("\n")` on a line read from the words file). -/
def stripNewlines (l : List Char) : List Char :=
  ((l.dropWhile (fun c => c = Char.ofNat 10)).reverse.dropWhile
    (fun c => c = Char.ofNat 10)).reverse

/-- Iterates the word lines and stores one `WordleOption` per line
(`WordleGame._storeOptions`).  `WordleOption` defines neither `__eq__` nor
`__hash__`, so the Python set holds each freshly constructed object by
identity and never deduplicates: the embedding is the list of stored
options, one per line. -/
def storeOptions (lines : List (List Char)) : List WordleOption :=
  lines.map (fun l => WordleOption.mk (stripNewlines l))

/-- C9 counterexample: loading a word list with a duplicated line yields a
catalog with two distinct entries carrying equal word strings, so the
catalog is not deduplicated by word value. -/
theorem C9_duplicate_words_counterexample :
    ¬ ((storeOptions ["aaaaa".toList, "aaaaa".toList]).map
        WordleOption.word).Nodup := by decide

/-- C9 (amended): candidates are stored by object identity with no
value-based deduplication: the loaded catalog holds exactly one entry per
input line, each keeping that line's newline-stripped word verbatim, so
duplicate lines yield distinct catalog entries with equal words. -/
theorem C9_storeOptions_words (lines : List (List Char)) :
    (storeOptions lines).map WordleOption.word = lines.map stripNewlines := by
  simp [storeOptions]

/-! ### Game loops -/

/-- Game state of a `WordleGame` session: the per-session trackers, the
remaining options, and the append-only guess log (`guess_results`). -/
structure GState where
  trackers : Trackers
  options : List WordleOption
  log : List GuessResult
deriving DecidableEq, Repr

/-- Naive next guess (`WordleGame._getNextGuess`): the first element the
iteration over `remaining_options` yields, or the safety word "aaaaa" when
no options remain. -/
def getNextGuessNaive (options : List WordleOption) : WordleOption :=
  match options with
  | o :: _ => o
  | [] => ⟨"aaaaa".toList⟩

/-- Literal all-Green test of the play loops
(`Counter(results).get(LetterResultOptions.Green, 0) == 5`) applied to the
last appended guess result. -/
def lastWin (st : GState) : Bool :=
  match st.log.getLast? with
  | some gr => gr.result.count Color.Green = 5
  | none => false

/-- One turn shared by the play loops: pick the naive next guess, obtain the
simulated result (the completion games override `_submitGuess` to call
`validateGuess` against the hidden solution), append the `GuessResult`, and
— unless the result is all Green, which returns at once — run
`_updateOptions`: the tracker update from the last guess followed by
`filterOptions` with `guessed_counts = guess.letters.copy()`. -/
def stepGame (sol : List Char) (st : GState) : GState :=
  let guess := getNextGuessNaive st.options
  let res := validateGuess guess.word sol
  let st1 : GState := { st with log := st.log ++ [⟨guess, res⟩] }
  if res.count Color.Green = 5 then st1
  else
    let p := updateCountsHelper guess.word res st.trackers
    { st1 with
      trackers := p.2
      options := filterOptions st1.options (fun c => guess.word.count c) p.1
        ((guess.word.zip res).map Prod.fst)
        p.2.guessed_letters p.2.wrong_placed_letters p.2.bad_letters }

/-- Play loop of the base game (`WordleGame.playGame`): while fewer than 6
results are logged, take a turn and stop at once on an all-Green result.
The fuel argument only bounds the recursion; 6 iterations always suffice
because every turn appends exactly one log entry. -/
def baseRun (sol : List Char) : Nat → GState → GState
  | 0, st => st
  | fuel + 1, st =>
    if st.log.length < 6 then
      let st2 := stepGame sol st
      if lastWin st2 then st2 else baseRun sol fuel st2
    else st

/-- Play loop of `BasicWordleCompletion.playGame`: a `while True` loop that
stops only on an all-Green result; the fuel argument cuts the otherwise
unbounded loop after a given number of turns for observation. -/
def basicRun (sol : List Char) : Nat → GState → GState
  | 0, st => st
  | fuel + 1, st =>
    let st2 := stepGame sol st
    if lastWin st2 then st2 else basicRun sol fuel st2

theorem stepGame_log (sol : List Char) (st : GState) :
    (stepGame sol st).log.length = st.log.length + 1 := by
  unfold stepGame
  by_cases h :
      (validateGuess (getNextGuessNaive st.options).word sol).count Color.Green = 5
  · simp [h]
  · simp [h]

/-- C8 counterexample: `BasicWordleCompletion.playGame` has no 6-guess
budget: with solution "zzzzz" and initial catalog {"aaaaa"}, the loop never
sees an all-Green result and after 7 iterations the guess log holds 7
entries, exceeding the claimed bound of 6. -/
theorem C8_basic_game_unbounded_counterexample :
    (basicRun "zzzzz".toList 7
      ⟨freshTrackers, [⟨"aaaaa".toList⟩], []⟩).log.length = 7 := by decide

/-- C8 (amended): the base `WordleGame.playGame` loop is bounded: starting
from a log of at most 6 entries with enough fuel, the run ends with at most
6 logged guesses, and it ends either on an all-Green last result or with
the log at the 6-guess budget; `BasicWordleCompletion.playGame`, however,
loops without a budget until an all-Green result. -/
theorem C8_base_game_bounded (sol : List Char) (fuel : Nat) (st : GState)
    (h1 : st.log.length ≤ 6) (h2 : 6 ≤ fuel + st.log.length) :
    (baseRun sol fuel st).log.length ≤ 6 ∧
      (lastWin (baseRun sol fuel st) = true ∨
        (baseRun sol fuel st).log.length = 6) := by
  induction fuel generalizing st with
  | zero =>
    refine ⟨h1, Or.inr ?_⟩
    show st.log.length = 6
    omega
  | succ n ih =>
    simp only [baseRun]
    by_cases hlt : st.log.length < 6
    · rw [if_pos hlt]
      by_cases hwin : lastWin (stepGame sol st) = true
      · rw [if_pos hwin]
        have hstep := stepGame_log sol st
        exact ⟨by omega, Or.inl hwin⟩
      · rw [if_neg hwin]
        have hstep := stepGame_log sol st
        exact ih (stepGame sol st) (by omega) (by omega)
    · rw [if_neg hlt]
      exact ⟨h1, Or.inr (by omega)⟩

/-- C8 witness: with solution "aaaaa" and catalog {"aaaaa"}, the bounded
base loop stops with one logged all-Green guess. -/
theorem C8_base_game_bounded_witness :
    (baseRun "aaaaa".toList 6 ⟨freshTrackers, [⟨"aaaaa".toList⟩], []⟩).log.length
      ≤ 6 ∧
    (lastWin (baseRun "aaaaa".toList 6
        ⟨freshTrackers, [⟨"aaaaa".toList⟩], []⟩) = true ∨
      (baseRun "aaaaa".toList 6
        ⟨freshTrackers, [⟨"aaaaa".toList⟩], []⟩).log.length = 6) :=
  C8_base_game_bounded "aaaaa".toList 6 ⟨freshTrackers, [⟨"aaaaa".toList⟩], []⟩
    (by decide) (by decide)

/-! ### Entropy scoring and guess selection -/

/-- Modelled from the spec: `self.remaining_map`, read by
`_getPossibleColorings`, is not present under src/ (only its readers are).
Per spec section 3 it is the per-position index of the Catalog — for each
position, the mapping from letter to the candidates having that letter
there — so `len(self.remaining_map[i])` is the number of distinct letters
occurring at position `i` among the remaining candidates. -/
def remainingMapSize (options : List WordleOption) (i : Nat) : Nat :=
  ((options.map (fun o => o.word.getD i (Char.ofNat 32))).dedup).length

/-- Returns an array of possible colorings
(`EntropyWordleCompletion._getPossibleColorings`): five rounds of extending
every partial coloring, emitting only Green at a position whose index
bucket holds a single distinct letter and all three colors otherwise. -/
def getPossibleColorings (options : List WordleOption) : List (List Color) :=
  (List.range 5).foldl
    (fun acc i =>
      acc.flatMap (fun combo =>
        if remainingMapSize options i = 1 then [combo ++ [Color.Green]]
        else [combo ++ [Color.Green], combo ++ [Color.Yellow],
          combo ++ [Color.Grey]]))
    [[]]

/-- Information entropy contribution of one coloring
(`EntropyWordleCompletion._calcEntropy`): `P` is the fraction of remaining
options surviving the filter, the contribution is `0.0` when `P == 0` and
`-P * log2(P)` otherwise.  Python floats are modelled as real numbers. -/
noncomputable def calcEntropy (options : List WordleOption)
    (wordle_option : WordleOption) (result : List Color) : ℝ :=
  let P : ℝ := ((filterCatalog options wordle_option result).length : ℝ) /
    (options.length : ℝ)
  if P = 0 then 0 else -P * Real.logb 2 P

/-- Average information gained across the possible results
(`EntropyWordleCompletion._getEntropy`): colorings failing
`isValidColoring` are skipped, the rest accumulate `_calcEntropy`. -/
noncomputable def getEntropy (options : List WordleOption)
    (wordle_option : WordleOption) (possible_results : List (List Color)) : ℝ :=
  possible_results.foldl
    (fun e result =>
      if isValidColoring wordle_option.word result then
        e + calcEntropy options wordle_option result
      else e) 0

/-- Argmax loop of `EntropyWordleCompletion._getNextGuess` over the
`(option, entropy)` pairs: a strictly greater entropy replaces the current
best, starting from `(None, -1)`. -/
noncomputable def selLoop :
    Option WordleOption × ℝ → List (WordleOption × ℝ) → Option WordleOption × ℝ
  | best, [] => best
  | best, p :: rest =>
    selLoop (if p.2 > best.2 then (some p.1, p.2) else best) rest

/-- Guess selection of `EntropyWordleCompletion._getNextGuess`: run the
argmax loop, then fall back to the safety word "aaaaa" when nothing was
picked (`if not next_guess`). -/
noncomputable def selectGuess (entropies : List (WordleOption × ℝ)) :
    WordleOption :=
  match (selLoop (none, -1) entropies).1 with
  | some w => w
  | none => ⟨"aaaaa".toList⟩

/-- Entropy contribution as a function of the surviving count and the
catalog size; `calcEntropy` is exactly this applied to the lengths. -/
noncomputable def entropyTerm (k n : Nat) : ℝ :=
  if (k : ℝ) / (n : ℝ) = 0 then 0
  else -((k : ℝ) / (n : ℝ)) * Real.logb 2 ((k : ℝ) / (n : ℝ))

theorem calcEntropy_eq (options : List WordleOption) (wo : WordleOption)
    (r : List Color) :
    calcEntropy options wo r =
      entropyTerm (filterCatalog options wo r).length options.length := rfl

/-- Surviving counts of the valid colorings, in enumeration order. -/
def sizesList (options : List WordleOption) (wo : WordleOption)
    (rs : List (List Color)) : List Nat :=
  (rs.filter (fun r => isValidColoring wo.word r)).map
    (fun r => (filterCatalog options wo r).length)

theorem getEntropy_foldl_aux (options : List WordleOption) (wo : WordleOption) :
    ∀ (rs : List (List Color)) (e : ℝ),
    rs.foldl
      (fun e result =>
        if isValidColoring wo.word result then
          e + calcEntropy options wo result
        else e) e =
      e + ((rs.filter (fun r => isValidColoring wo.word r)).map
        (fun r => calcEntropy options wo r)).sum := by
  intro rs
  induction rs with
  | nil => intro e; simp
  | cons r rest ih =>
    intro e
    by_cases h : isValidColoring wo.word r = true
    · simp only [List.foldl_cons, List.filter_cons, h, if_pos, List.map_cons,
        List.sum_cons, ih]
      ring
    · simp only [List.foldl_cons, List.filter_cons, h, List.map_cons, ih]
      simp [h]

theorem getEntropy_eq_sizes (options : List WordleOption) (wo : WordleOption)
    (rs : List (List Color)) :
    getEntropy options wo rs =
      ((sizesList options wo rs).map
        (fun k => entropyTerm k options.length)).sum := by
  unfold getEntropy sizesList
  rw [getEntropy_foldl_aux]
  rw [List.map_map]
  simp only [calcEntropy_eq, Function.comp_def]
  ring

theorem entropyTerm_nonneg (k n : Nat) (h : k ≤ n) : 0 ≤ entropyTerm k n := by
  unfold entropyTerm
  by_cases hP : (k : ℝ) / (n : ℝ) = 0
  · rw [if_pos hP]
  · rw [if_neg hP]
    have hn : 0 < (n : ℝ) := by
      rcases Nat.eq_zero_or_pos n with rfl | hpos
      · simp at hP
      · exact_mod_cast hpos
    have hP0 : 0 ≤ (k : ℝ) / (n : ℝ) := div_nonneg (by positivity) hn.le
    have hP1 : (k : ℝ) / (n : ℝ) ≤ 1 := by
      rw [div_le_one hn]
      exact_mod_cast h
    have hlog : Real.logb 2 ((k : ℝ) / (n : ℝ)) ≤ 0 :=
      Real.logb_nonpos (by norm_num) hP0 hP1
    nlinarith

theorem filterCatalog_length_le (options : List WordleOption)
    (wo : WordleOption) (r : List Color) :
    (filterCatalog options wo r).length ≤ options.length := by
  exact List.Sublist.length_le (sublist_filterOptions options _ _ _ _ _ _)

theorem getEntropy_nonneg (options : List WordleOption) (wo : WordleOption)
    (rs : List (List Color)) : 0 ≤ getEntropy options wo rs := by
  rw [getEntropy_eq_sizes]
  apply List.sum_nonneg
  intro x hx
  obtain ⟨k, hk, rfl⟩ := List.mem_map.mp hx
  obtain ⟨r, _, rfl⟩ := List.mem_map.mp hk
  exact entropyTerm_nonneg _ _ (filterCatalog_length_le options wo r)

theorem selLoop_spec (l : List (WordleOption × ℝ)) :
    ∀ (w : WordleOption) (e : ℝ),
    ∃ w2 e2, selLoop (some w, e) l = (some w2, e2) ∧
      e ≤ e2 ∧ (∀ p ∈ l, p.2 ≤ e2) ∧
      ((w2 = w ∧ e2 = e) ∨
        ∃ i, ∃ h : i < l.length, l.get ⟨i, h⟩ = (w2, e2) ∧ e < e2 ∧
          ∀ j, ∀ hj : j < l.length, j < i → (l.get ⟨j, hj⟩).2 < e2) := by
  induction l with
  | nil =>
    intro w e
    exact ⟨w, e, rfl, le_refl e, by simp, Or.inl ⟨rfl, rfl⟩⟩
  | cons p rest ih =>
    intro w e
    by_cases hgt : p.2 > e
    · have hstep : selLoop (some w, e) (p :: rest) =
          selLoop (some p.1, p.2) rest := by
        show selLoop (if p.2 > e then (some p.1, p.2) else (some w, e)) rest = _
        rw [if_pos hgt]
      obtain ⟨w2, e2, heq, hle, hall, hcases⟩ := ih p.1 p.2
      refine ⟨w2, e2, hstep.trans heq, by linarith, ?_, ?_⟩
      · intro q hq
        rcases List.mem_cons.mp hq with rfl | hq2
        · exact hle
        · exact hall q hq2
      · rcases hcases with ⟨rfl, rfl⟩ | ⟨i, h, hget, hlt, hprev⟩
        · refine Or.inr ⟨0, by simp, by simp, hgt, ?_⟩
          intro j hj hj0
          omega
        · refine Or.inr ⟨i + 1, by simpa using Nat.succ_lt_succ h, ?_, ?_, ?_⟩
          · simpa using hget
          · linarith
          · intro j hj hji
            cases j with
            | zero => simpa using hlt
            | succ m =>
              have hm : m < rest.length := by simpa using hj
              have := hprev m hm (by omega)
              simpa using this
    · have hstep : selLoop (some w, e) (p :: rest) =
          selLoop (some w, e) rest := by
        show selLoop (if p.2 > e then (some p.1, p.2) else (some w, e)) rest = _
        rw [if_neg hgt]
      obtain ⟨w2, e2, heq, hle, hall, hcases⟩ := ih w e
      refine ⟨w2, e2, hstep.trans heq, hle, ?_, ?_⟩
      · intro q hq
        rcases List.mem_cons.mp hq with rfl | hq2
        · push_neg at hgt
          linarith
        · exact hall q hq2
      · rcases hcases with hfst | ⟨i, h, hget, hlt, hprev⟩
        · exact Or.inl hfst
        · refine Or.inr ⟨i + 1, by simpa using Nat.succ_lt_succ h, ?_, hlt, ?_⟩
          · simpa using hget
          · intro j hj hji
            cases j with
            | zero =>
              push_neg at hgt
              show p.2 < e2
              linarith
            | succ m =>
              have hm : m < rest.length := by simpa using hj
              have := hprev m hm (by omega)
              simpa using this

/-- C3 (amended): given a fixed evaluation order of the `(option, entropy)`
pairs, `_getNextGuess` is a pure function of that list and returns the first
pair attaining the maximal entropy — ties keep the first-evaluated
candidate; the choice does depend on the iteration order of the candidate
set, which in the source is an unordered Python set. -/
theorem C3_selector_first_argmax (entropies : List (WordleOption × ℝ))
    (hne : entropies ≠ []) (hgt : ∀ p ∈ entropies, (-1 : ℝ) < p.2) :
    ∃ i, ∃ h : i < entropies.length,
      selectGuess entropies = (entropies.get ⟨i, h⟩).1 ∧
      (∀ j, ∀ hj : j < entropies.length,
        (entropies.get ⟨j, hj⟩).2 ≤ (entropies.get ⟨i, h⟩).2) ∧
      (∀ j, ∀ hj : j < entropies.length, j < i →
        (entropies.get ⟨j, hj⟩).2 < (entropies.get ⟨i, h⟩).2) := by
  cases entropies with
  | nil => exact absurd rfl hne
  | cons p rest =>
    have hp : (-1 : ℝ) < p.2 := hgt p (List.mem_cons_self _ _)
    have hstep : selLoop (none, -1) (p :: rest) = selLoop (some p.1, p.2) rest := by
      show selLoop (if p.2 > -1 then (some p.1, p.2) else (none, -1)) rest = _
      rw [if_pos hp]
    obtain ⟨w2, e2, heq, hle, hall, hcases⟩ := selLoop_spec rest p.1 p.2
    have hsel : selectGuess (p :: rest) = w2 := by
      unfold selectGuess
      rw [hstep, heq]
    rcases hcases with ⟨hw, he⟩ | ⟨i, h, hget, hlt, hprev⟩
    · refine ⟨0, by simp, by simpa [hw] using hsel, ?_, ?_⟩
      · intro j hj
        cases j with
        | zero => simp
        | succ m =>
          have hm : m < rest.length := by simpa using hj
          have := hall (rest.get ⟨m, hm⟩) (List.get_mem rest m hm)
          show (rest.get ⟨m, hm⟩).2 ≤ p.2
          rw [← he]
          simpa using this
      · intro j hj hj0
        omega
    · refine ⟨i + 1, by simpa using Nat.succ_lt_succ h, ?_, ?_, ?_⟩
      · rw [hsel]
        have : (p :: rest).get ⟨i + 1, by simpa using Nat.succ_lt_succ h⟩ =
            rest.get ⟨i, h⟩ := by simp
        rw [this, hget]
      · intro j hj
        have hival : ((p :: rest).get ⟨i + 1, by simpa using Nat.succ_lt_succ h⟩).2
            = e2 := by
          have : (p :: rest).get ⟨i + 1, by simpa using Nat.succ_lt_succ h⟩ =
              rest.get ⟨i, h⟩ := by simp
          rw [this, hget]
        rw [hival]
        cases j with
        | zero => simpa using hle
        | succ m =>
          have hm : m < rest.length := by simpa using hj
          have := hall (rest.get ⟨m, hm⟩) (List.get_mem rest m hm)
          simpa using this
      · intro j hj hji
        have hival : ((p :: rest).get ⟨i + 1, by simpa using Nat.succ_lt_succ h⟩).2
            = e2 := by
          have : (p :: rest).get ⟨i + 1, by simpa using Nat.succ_lt_succ h⟩ =
              rest.get ⟨i, h⟩ := by simp
          rw [this, hget]
        rw [hival]
        cases j with
        | zero => simpa using hlt
        | succ m =>
          have hm : m < rest.length := by simpa using hj
          have := hprev m hm (by omega)
          simpa using this

/-- C3 witness: on a singleton entropy list the selector picks that single
candidate, which trivially attains the maximum. -/
theorem C3_selector_first_argmax_witness :
    ∃ i, ∃ h : i <
        ([((⟨"aaaaa".toList⟩ : WordleOption), (0 : ℝ))]).length,
      selectGuess [((⟨"aaaaa".toList⟩ : WordleOption), (0 : ℝ))] =
        (([((⟨"aaaaa".toList⟩ : WordleOption), (0 : ℝ))]).get ⟨i, h⟩).1 ∧
      (∀ j, ∀ hj : j < ([((⟨"aaaaa".toList⟩ : WordleOption), (0 : ℝ))]).length,
        (([((⟨"aaaaa".toList⟩ : WordleOption), (0 : ℝ))]).get ⟨j, hj⟩).2 ≤
          (([((⟨"aaaaa".toList⟩ : WordleOption), (0 : ℝ))]).get ⟨i, h⟩).2) ∧
      (∀ j, ∀ hj : j < ([((⟨"aaaaa".toList⟩ : WordleOption), (0 : ℝ))]).length,
        j < i →
        (([((⟨"aaaaa".toList⟩ : WordleOption), (0 : ℝ))]).get ⟨j, hj⟩).2 <
          (([((⟨"aaaaa".toList⟩ : WordleOption), (0 : ℝ))]).get ⟨i, h⟩).2) :=
  C3_selector_first_argmax [((⟨"aaaaa".toList⟩ : WordleOption), (0 : ℝ))]
    (by simp)
    (by
      intro p hp
      rw [List.mem_singleton] at hp
      subst hp
      norm_num)

/-- Catalog for the tie example: two words that are letter swaps of each
other, so each scores the same entropy against the shared colorings. -/
def catalogC3 : List WordleOption := [⟨"aaaab".toList⟩, ⟨"aaaba".toList⟩]

theorem selectGuess_pair_first (w1 w2 : WordleOption) (e : ℝ) (he : -1 < e) :
    selectGuess [(w1, e), (w2, e)] = w1 := by
  have h1 : selLoop ((none : Option WordleOption), (-1 : ℝ)) [(w1, e), (w2, e)] =
      (some w1, e) := by
    show selLoop (if e > -1 then (some w1, e) else (none, -1)) [(w2, e)] = _
    rw [if_pos he]
    show selLoop (if e > e then (some w2, e) else (some w1, e)) [] = _
    rw [if_neg (lt_irrefl e)]
    rfl
  unfold selectGuess
  rw [h1]

/-- C3 counterexample: with the two-word catalog {aaaab, aaaba} both
candidates score the same entropy against the shared colorings, so the
chosen guess is whichever pair the iteration yields first: the two
evaluation orders of the same candidate set and the same entropy values
select different words — selection is not independent of iteration order. -/
theorem C3_order_dependence_counterexample :
    selectGuess [(⟨"aaaab".toList⟩,
        getEntropy catalogC3 ⟨"aaaab".toList⟩ (getPossibleColorings catalogC3)),
      (⟨"aaaba".toList⟩,
        getEntropy catalogC3 ⟨"aaaba".toList⟩ (getPossibleColorings catalogC3))]
      = ⟨"aaaab".toList⟩ ∧
    selectGuess [(⟨"aaaba".toList⟩,
        getEntropy catalogC3 ⟨"aaaba".toList⟩ (getPossibleColorings catalogC3)),
      (⟨"aaaab".toList⟩,
        getEntropy catalogC3 ⟨"aaaab".toList⟩ (getPossibleColorings catalogC3))]
      = ⟨"aaaba".toList⟩ ∧
    (⟨"aaaab".toList⟩ : WordleOption) ≠ ⟨"aaaba".toList⟩ := by
  have he : getEntropy catalogC3 ⟨"aaaba".toList⟩ (getPossibleColorings catalogC3) =
      getEntropy catalogC3 ⟨"aaaab".toList⟩ (getPossibleColorings catalogC3) := by
    rw [getEntropy_eq_sizes, getEntropy_eq_sizes]
    have hsz : sizesList catalogC3 ⟨"aaaba".toList⟩ (getPossibleColorings catalogC3) =
        sizesList catalogC3 ⟨"aaaab".toList⟩ (getPossibleColorings catalogC3) := by
      decide
    rw [hsz]
  have hnn : (0 : ℝ) ≤
      getEntropy catalogC3 ⟨"aaaab".toList⟩ (getPossibleColorings catalogC3) :=
    getEntropy_nonneg catalogC3 ⟨"aaaab".toList⟩ (getPossibleColorings catalogC3)
  refine ⟨?_, ?_, by decide⟩
  · rw [he]
    exact selectGuess_pair_first _ _ _ (by linarith)
  · rw [he]
    exact selectGuess_pair_first _ _ _ (by linarith)

/-- C4 counterexample: the log2(|catalog|) upper bound fails for arbitrary
finite coloring sequences: over the catalog {aaaaa, bbbbb}, the guess
"aaaaa" scored against three copies of the all-Green coloring has entropy
3/2, which exceeds log2(2) = 1. -/
theorem C4_entropy_exceeds_log2_counterexample :
    Real.logb 2
      ((([⟨"aaaaa".toList⟩, ⟨"bbbbb".toList⟩] : List WordleOption).length : ℝ)) <
    getEntropy [⟨"aaaaa".toList⟩, ⟨"bbbbb".toList⟩] ⟨"aaaaa".toList⟩
      [List.replicate 5 Color.Green, List.replicate 5 Color.Green,
       List.replicate 5 Color.Green] := by
  rw [getEntropy_eq_sizes]
  have hsz : sizesList [⟨"aaaaa".toList⟩, ⟨"bbbbb".toList⟩] ⟨"aaaaa".toList⟩
      [List.replicate 5 Color.Green, List.replicate 5 Color.Green,
       List.replicate 5 Color.Green] = [1, 1, 1] := by decide
  rw [hsz]
  have hterm : entropyTerm 1 2 = 1 / 2 := by
    unfold entropyTerm
    rw [if_neg (by norm_num)]
    have h12 : ((1 : Nat) : ℝ) / ((2 : Nat) : ℝ) = (2 : ℝ)⁻¹ := by norm_num
    rw [h12, Real.logb_inv, Real.logb_self_eq_one (by norm_num)]
    norm_num
  have hlen : (([⟨"aaaaa".toList⟩, ⟨"bbbbb".toList⟩] : List WordleOption).length)
      = 2 := rfl
  rw [hlen]
  simp only [List.map_cons, List.map_nil, List.sum_cons, List.sum_nil, hterm]
  rw [show ((2 : Nat) : ℝ) = (2 : ℝ) from by norm_num,
    Real.logb_self_eq_one (by norm_num)]
  norm_num

/-- C4 (amended): the entropy score computed by `_getEntropy` is
nonnegative for every non-empty catalog, every guess, and every finite
sequence of colorings; the log2(|catalog|) upper bound does not hold for
arbitrary coloring sequences. -/
theorem C4_entropy_nonneg (options : List WordleOption) (wo : WordleOption)
    (rs : List (List Color)) (hne : options ≠ []) :
    0 ≤ getEntropy options wo rs :=
  getEntropy_nonneg options wo rs

/-- C4 witness: the guess "aaaaa" scored on the non-empty two-word catalog
{aaaaa, bbbbb} against the all-Green coloring has nonnegative entropy. -/
theorem C4_entropy_nonneg_witness :
    0 ≤ getEntropy [⟨"aaaaa".toList⟩, ⟨"bbbbb".toList⟩] ⟨"aaaaa".toList⟩
      [List.replicate 5 Color.Green] :=
  C4_entropy_nonneg [⟨"aaaaa".toList⟩, ⟨"bbbbb".toList⟩] ⟨"aaaaa".toList⟩
    [List.replicate 5 Color.Green] (by decide)
